import Mathlib

/-!
Verification development for the mind-map editor (React sources
src/src/App.js and src/unnamed/part_000).  The repository holds two
revisions of the editor: an older one (src/src/App.js, duplicated as the
first document of part_000) and a newer one (second document of
part_000) that adds the history stack, node colors, and the multi-map
catalog views.  The definitions below are shallow embeddings of the
relevant functions of both revisions; machine state (nodes, edges,
selection, history stack, debounce lock) is passed explicitly, the
unbounded JS recursions are indexed by fuel, and the browser storage is
modelled as an explicit value.
-/

namespace Mindmap

/-- Cartesian position of a node (the JS object {x, y}). -/
structure Pt where
  x : Int
  y : Int
deriving DecidableEq, Repr

/-- Payload of a node (the JS object data: {label, color}).  The older
revision stores only a label; its color is absent, which we render as the
default "#333". -/
structure NodeData where
  label : String
  color : String
deriving DecidableEq, Repr

/-- A graph node as stored in the React state: id, position, data and the
hidden flag (undefined in JS is rendered as false). -/
structure Node where
  id : String
  position : Pt
  data : NodeData
  hidden : Bool
deriving DecidableEq, Repr

/-- A directed edge (source → target) as stored in the React state. -/
structure Edge where
  id : String
  source : String
  target : String
deriving DecidableEq, Repr

/-- Sequencing of a list of Option-valued computations, returning none as
soon as one of them returns none.  Used to render the JS recursions whose
recursive calls may diverge (divergence = fuel exhaustion = none). -/
def optMapM (f : α → Option β) : List α → Option (List β)
  | [] => some []
  | a :: as =>
    match f a, optMapM f as with
    | some b, some bs => some (b :: bs)
    | _, _ => none

/-- Embedding of getDescendants (src/src/App.js lines 246-253, and lines
390-397 of the first document of part_000):

  const getDescendants = (parentId) => \x7b
    const children = edges.filter((e) => e.source === parentId).map((e) => e.target);
    let all = [...children];
    children.forEach((childId) => \x7b all = [...all, ...getDescendants(childId)]; \x7d);
    return [parentId, ...all];
  \x7d;

The JS function recurses with no visited set, so on a cyclic edge list it
never returns; the embedding indexes the recursion by fuel and returns
none when the fuel runs out, so "diverges" = "none for every fuel". -/
def getDescendantsF (edges : List Edge) : Nat → String → Option (List String)
  | 0, _ => none
  | fuel + 1, parentId =>
    let children := (edges.filter (fun e => e.source == parentId)).map (fun e => e.target)
    match optMapM (getDescendantsF edges fuel) children with
    | none => none
    | some rs => some (parentId :: (children ++ rs.flatten))

/-- A two-edge cycle a → b → a, reachable from "a". -/
def cycEdges : List Edge := [⟨"e1", "a", "b"⟩, ⟨"e2", "b", "a"⟩]

theorem getDescendantsF_cyc_aux :
    ∀ fuel : Nat, getDescendantsF cycEdges fuel "a" = none ∧
      getDescendantsF cycEdges fuel "b" = none := by
  intro fuel
  induction fuel with
  | zero => exact ⟨rfl, rfl⟩
  | succ n ih =>
    obtain ⟨iha, ihb⟩ := ih
    simp only [cycEdges] at iha ihb
    constructor
    · show getDescendantsF cycEdges (n + 1) "a" = none
      simp only [getDescendantsF, cycEdges]
      simp only [List.filter, List.map, optMapM]
      rw [ihb]
    · show getDescendantsF cycEdges (n + 1) "b" = none
      simp only [getDescendantsF, cycEdges]
      simp only [List.filter, List.map, optMapM]
      rw [iha]

/-- C1: the claim states that getDescendants(id, edges) terminates in
finite time even when the edge list contains a cycle reachable from id.
The source function recurses with no visited set; on the two-edge cycle
a → b → a it calls itself forever (in the fuel-indexed embedding, every
fuel is exhausted and no result is ever produced), so the claim describes
intended behavior the code does not have. -/
theorem c1_getDescendants_diverges_on_cycle :
    ∀ fuel : Nat, getDescendantsF cycEdges fuel "a" = none :=
  fun fuel => (getDescendantsF_cyc_aux fuel).1

/-- One history entry, a deep copy of (nodes, edges) (part_000 line 744:
the object \x7b n: JSON.parse(JSON.stringify(n)), e: JSON.parse(JSON.stringify(e)) \x7d;
deep-copying is the identity on the pure values of the embedding). -/
structure HEntry where
  n : List Node
  e : List Edge
deriving DecidableEq, Repr

/-- The editor state of the newer revision (part_000 lines 723-733):
nodes, edges, the selected node (the node object captured at click time),
the history stack, and the isSavingRef debounce lock. -/
structure Session where
  nodes : List Node
  edges : List Edge
  selected : Option Node
  history : List HEntry
  lock : Bool
deriving DecidableEq, Repr

/-- Embedding of pushHistory (part_000 lines 735-753): if the isSavingRef
lock is held the push is silently dropped; otherwise the history becomes
prev.slice(-20) with the new entry appended (so at most 21 entries), and
the lock is taken.  The setTimeout that releases the lock after 100ms is
modelled by the separate releaseLock step. -/
def pushHistory (s : Session) (n : List Node) (e : List Edge) : Session :=
  if s.lock then s
  else { s with
    history := s.history.drop (s.history.length - 20) ++ [⟨n, e⟩],
    lock := true }

/-- Expiry of the 100ms debounce window: the setTimeout callback of
part_000 lines 750-752 resets isSavingRef. -/
def releaseLock (s : Session) : Session :=
  { s with lock := false }

/-- Embedding of undo (part_000 lines 755-773): with fewer than 2 history
entries it does nothing; otherwise it pops the top entry and, the rest
being nonempty, applies the new top entry's nodes and edges. -/
def undoF (s : Session) : Session :=
  if s.history.length < 2 then s
  else
    let newHistory := s.history.dropLast
    match newHistory.getLast? with
    | some prevState =>
        { s with history := newHistory, nodes := prevState.n, edges := prevState.e }
    | none => { s with history := newHistory }

/-- Embedding of addNode (part_000 lines 794-817): requires a selection;
pushes the pre-add state, builds the child at
(selected.x + 240, selected.y + siblingCount * 60) where siblingCount
counts the nodes whose x equals selected.x + 240, with label 新規項目 and
the selected node's color, appends the node and the parent→child edge,
then pushes the post-add state (which the debounce lock set by the first
push drops).  The two uuidv4() results are passed in as newId and eid. -/
def addNodeF (s : Session) (newId eid : String) : Session :=
  match s.selected with
  | none => s
  | some selected =>
    let s1 := pushHistory s s.nodes s.edges
    let siblingCount :=
      (s.nodes.filter (fun n => n.position.x == selected.position.x + 240)).length
    let newNode : Node :=
      { id := newId,
        position := { x := selected.position.x + 240,
                      y := selected.position.y + (siblingCount : Int) * 60 },
        data := { label := "新規項目", color := selected.data.color },
        hidden := false }
    let nextNodes := s.nodes ++ [newNode]
    let nextEdges := s.edges ++ [⟨eid, selected.id, newId⟩]
    let s2 := { s1 with nodes := nextNodes, edges := nextEdges }
    pushHistory s2 nextNodes nextEdges

/-- Update applied to one node by updateLabel (part_000 line 778:
n.id === id ? \x7b ...n, data: \x7b ...n.data, label \x7d \x7d : n). -/
def relabelNode (id label : String) (n : Node) : Node :=
  if n.id == id then { n with data := { n.data with label := label } } else n

/-- Embedding of updateLabel (part_000 lines 775-787): maps relabelNode
over the nodes, pushes the relabelled nodes with the current edges to the
history, and installs the relabelled nodes. -/
def updateLabel (s : Session) (id label : String) : Session :=
  let nextNodes := s.nodes.map (relabelNode id label)
  let s1 := pushHistory s nextNodes s.edges
  { s1 with nodes := nextNodes }

/-- Embedding of getChildren inside deleteNode (part_000 line 822):

  const getChildren = (id) => edges.filter(e => e.source === id)
    .reduce((acc, e) => [...acc, e.target, ...getChildren(e.target)], []);

like getDescendantsF it has no visited set, so the recursion is indexed
by fuel (none = the JS call never returns). -/
def getChildrenF (edges : List Edge) : Nat → String → Option (List String)
  | 0, _ => none
  | fuel + 1, id =>
    let es := edges.filter (fun e => e.source == id)
    match optMapM (fun e => (getChildrenF edges fuel e.target).map (fun r => e.target :: r)) es with
    | none => none
    | some rs => some rs.flatten

/-- Embedding of deleteNode (part_000 lines 819-827): requires a
selection; pushes the pre-delete state, computes
targets = [selected.id, ...getChildren(selected.id)], keeps only the
nodes whose id is not a target and only the edges neither of whose
endpoints is a target, and clears the selection.  Returns none when the
getChildren recursion diverges. -/
def deleteNodeF (fuel : Nat) (s : Session) : Option Session :=
  match s.selected with
  | none => some s
  | some selected =>
    let s1 := pushHistory s s.nodes s.edges
    match getChildrenF s.edges fuel selected.id with
    | none => none
    | some kids =>
      let targets := selected.id :: kids
      some { s1 with
        nodes := s1.nodes.filter (fun n => !targets.contains n.id),
        edges := s1.edges.filter (fun e => !targets.contains e.source && !targets.contains e.target),
        selected := none }

/-- Reachability along edges in the source → target direction, reflexive
and transitive: the descendant set of the spec glossary ("all nodes
reachable from a node by following edges in the parent→child direction,
inclusive of the node itself"). -/
inductive Reaches (edges : List Edge) : String → String → Prop
  | refl (x : String) : Reaches edges x x
  | step {x y z : String} (e : Edge) (he : e ∈ edges) (hs : e.source = x)
      (ht : e.target = y) (hr : Reaches edges y z) : Reaches edges x z

theorem optMapM_mem_of_mem_result {f : α → Option β} :
    ∀ {as : List α} {bs : List β}, optMapM f as = some bs →
      ∀ b ∈ bs, ∃ a ∈ as, f a = some b := by
  intro as
  induction as with
  | nil =>
    intro bs h b hb
    simp only [optMapM, Option.some.injEq] at h
    subst h
    simp at hb
  | cons a as ih =>
    intro bs h b hb
    simp only [optMapM] at h
    cases hfa : f a with
    | none => rw [hfa] at h; simp at h
    | some b0 =>
      rw [hfa] at h
      cases hrest : optMapM f as with
      | none => rw [hrest] at h; simp at h
      | some bs0 =>
        rw [hrest] at h
        simp only [Option.some.injEq] at h
        subst h
        rcases List.mem_cons.mp hb with hb | hb
        · exact ⟨a, List.mem_cons_self a as, hb ▸ hfa⟩
        · obtain ⟨a1, ha1, hfa1⟩ := ih hrest b hb
          exact ⟨a1, List.mem_cons_of_mem a ha1, hfa1⟩

theorem optMapM_exists_of_mem {f : α → Option β} :
    ∀ {as : List α} {bs : List β}, optMapM f as = some bs →
      ∀ a ∈ as, ∃ b ∈ bs, f a = some b := by
  intro as
  induction as with
  | nil => intro bs h a ha; simp at ha
  | cons a0 as ih =>
    intro bs h a ha
    simp only [optMapM] at h
    cases hfa : f a0 with
    | none => rw [hfa] at h; simp at h
    | some b0 =>
      rw [hfa] at h
      cases hrest : optMapM f as with
      | none => rw [hrest] at h; simp at h
      | some bs0 =>
        rw [hrest] at h
        simp only [Option.some.injEq] at h
        subst h
        rcases List.mem_cons.mp ha with ha | ha
        · exact ⟨b0, List.mem_cons_self b0 bs0, ha ▸ hfa⟩
        · obtain ⟨b, hb, hfb⟩ := ih hrest a ha
          exact ⟨b, List.mem_cons_of_mem b0 hb, hfb⟩

theorem getChildrenF_sound {edges : List Edge} :
    ∀ (fuel : Nat) (x : String) (l : List String),
      getChildrenF edges fuel x = some l → ∀ y ∈ l, Reaches edges x y := by
  intro fuel
  induction fuel with
  | zero => intro x l h; simp [getChildrenF] at h
  | succ n ih =>
    intro x l h y hy
    simp only [getChildrenF] at h
    split at h
    · exact absurd h (by simp)
    · rename_i rs hrs
      simp only [Option.some.injEq] at h
      subst h
      obtain ⟨block, hblock, hyblock⟩ := List.mem_flatten.mp hy
      obtain ⟨e, he, hge⟩ := optMapM_mem_of_mem_result hrs block hblock
      obtain ⟨hemem, hesrc⟩ := List.mem_filter.mp he
      have hesrc' : e.source = x := by simpa using hesrc
      obtain ⟨r, hr, hblockeq⟩ := Option.map_eq_some'.mp hge
      subst hblockeq
      rcases List.mem_cons.mp hyblock with hy1 | hy1
      · exact hy1 ▸ Reaches.step e hemem hesrc' rfl (Reaches.refl _)
      · exact Reaches.step e hemem hesrc' rfl (ih e.target r hr y hy1)

theorem getChildrenF_complete {edges : List Edge} :
    ∀ (fuel : Nat) (x : String) (l : List String),
      getChildrenF edges fuel x = some l →
      ∀ y, Reaches edges x y → y = x ∨ y ∈ l := by
  intro fuel
  induction fuel with
  | zero => intro x l h; simp [getChildrenF] at h
  | succ n ih =>
    intro x l h y hreach
    cases hreach with
    | refl => exact Or.inl rfl
    | step e he hs ht hr =>
      right
      simp only [getChildrenF] at h
      split at h
      · exact absurd h (by simp)
      · rename_i rs hrs
        simp only [Option.some.injEq] at h
        subst h
        have hefilter : e ∈ edges.filter (fun e => e.source == x) :=
          List.mem_filter.mpr ⟨he, by simp [hs]⟩
        obtain ⟨block, hblock, hge⟩ := optMapM_exists_of_mem hrs e hefilter
        obtain ⟨r, hrsome, hblockeq⟩ := Option.map_eq_some'.mp hge
        subst hblockeq
        have hy : y ∈ e.target :: r := by
          rcases ih e.target r hrsome y (ht ▸ hr) with h1 | h1
          · exact h1 ▸ List.mem_cons_self _ _
          · exact List.mem_cons_of_mem _ h1
        exact List.mem_flatten.mpr ⟨e.target :: r, hblock, hy⟩

/-- Membership in the deletion target list [selected.id, ...getChildren(selected.id)]
coincides with reachability from selected.id. -/
theorem targets_mem_iff {edges : List Edge} {fuel : Nat} {x : String} {l : List String}
    (h : getChildrenF edges fuel x = some l) (y : String) :
    y ∈ x :: l ↔ Reaches edges x y := by
  constructor
  · intro hy
    rcases List.mem_cons.mp hy with hy | hy
    · subst hy; exact Reaches.refl _
    · exact getChildrenF_sound fuel x l h y hy
  · intro hr
    rcases getChildrenF_complete fuel x l h y hr with h1 | h1
    · exact h1 ▸ List.mem_cons_self _ _
    · exact List.mem_cons_of_mem _ h1

theorem pushHistory_nodes (s : Session) (n : List Node) (e : List Edge) :
    (pushHistory s n e).nodes = s.nodes ∧ (pushHistory s n e).edges = s.edges := by
  unfold pushHistory
  split <;> exact ⟨rfl, rfl⟩

/-- C2: when deleteNode runs on a selected node X (and its descendant
walk terminates), the surviving nodes are a sublist of the old ones
containing exactly the nodes whose id is not reachable from X.id, and the
surviving edges are a sublist of the old ones containing exactly the
edges neither of whose endpoints is reachable from X.id: so exactly the
descendant set of X is removed, every edge touching a removed id is
removed, and edges between two surviving nodes are untouched. -/
theorem c2_deleteNode_removes_exactly_descendants
    (s : Session) (selected : Node) (fuel : Nat) (t : Session)
    (hsel : s.selected = some selected)
    (hrun : deleteNodeF fuel s = some t) :
    t.nodes.Sublist s.nodes ∧
    (∀ n : Node, n ∈ t.nodes ↔ n ∈ s.nodes ∧ ¬ Reaches s.edges selected.id n.id) ∧
    t.edges.Sublist s.edges ∧
    (∀ e : Edge, e ∈ t.edges ↔
      e ∈ s.edges ∧ ¬ Reaches s.edges selected.id e.source ∧
        ¬ Reaches s.edges selected.id e.target) := by
  unfold deleteNodeF at hrun
  rw [hsel] at hrun
  simp only at hrun
  split at hrun
  · exact absurd hrun (by simp)
  · rename_i kids hkids
    simp only [Option.some.injEq] at hrun
    subst hrun
    obtain ⟨hpn, hpe⟩ := pushHistory_nodes s s.nodes s.edges
    simp only [hpn, hpe]
    have hmem : ∀ y : String, (selected.id :: kids).contains y = true ↔
        Reaches s.edges selected.id y := by
      intro y
      rw [List.elem_iff]
      exact targets_mem_iff hkids y
    refine ⟨List.filter_sublist _, ?_, List.filter_sublist _, ?_⟩
    · intro n
      rw [List.mem_filter]
      simp only [Bool.not_eq_eq_eq_not, Bool.not_true, ← Bool.not_eq_true, hmem]
    · intro e
      rw [List.mem_filter]
      simp only [Bool.and_eq_true, Bool.not_eq_eq_eq_not, Bool.not_true,
        ← Bool.not_eq_true, hmem]

theorem undoF_noop {s : Session} (h : s.history.length < 2) : undoF s = s := by
  unfold undoF
  rw [if_pos h]

theorem undoF_pop {s : Session} (h : 2 ≤ s.history.length) :
    ∃ prevState, s.history.dropLast.getLast? = some prevState ∧
      undoF s = { s with history := s.history.dropLast,
                         nodes := prevState.n, edges := prevState.e } := by
  have hne : s.history.dropLast ≠ [] := by
    apply List.ne_nil_of_length_pos
    rw [List.length_dropLast]
    omega
  cases hp : s.history.dropLast.getLast? with
  | none => exact absurd (List.getLast?_eq_none_iff.mp hp) hne
  | some prevState =>
    refine ⟨prevState, rfl, ?_⟩
    unfold undoF
    rw [if_neg (by omega)]
    simp only [hp]

theorem undoF_history_length {s : Session} (h : 2 ≤ s.history.length) :
    (undoF s).history.length = s.history.length - 1 := by
  obtain ⟨prevState, _, heq⟩ := undoF_pop h
  rw [heq]
  exact List.length_dropLast s.history

/-- C6: undo with fewer than 2 history entries is a no-op (the whole
session, hence nodes, edges and history, is unchanged); with at least 2
entries it discards the top entry and applies the new top entry's nodes
and edges to the graph state. -/
theorem c6_undo_spec (s : Session) :
    (s.history.length < 2 → undoF s = s) ∧
    (2 ≤ s.history.length →
      ∃ prevState, s.history.dropLast.getLast? = some prevState ∧
        undoF s = { s with history := s.history.dropLast,
                           nodes := prevState.n, edges := prevState.e }) :=
  ⟨fun h => undoF_noop h, fun h => undoF_pop h⟩

/-- A session with an empty history (as after onCreate, part_000 lines
854-860, which never seeds the history). -/
def emptyHistSession : Session := ⟨[], [], none, [], false⟩

/-- A session whose history has exactly 2 entries. -/
def twoHistSession : Session :=
  ⟨[], [⟨"e9", "p", "q"⟩], none, [⟨[], []⟩, ⟨[], [⟨"e9", "p", "q"⟩]⟩], false⟩

theorem c6_undo_spec_witness :
    undoF emptyHistSession = emptyHistSession ∧
    ∃ prevState, twoHistSession.history.dropLast.getLast? = some prevState ∧
      undoF twoHistSession = { twoHistSession with
        history := twoHistSession.history.dropLast,
        nodes := prevState.n, edges := prevState.e } :=
  ⟨(c6_undo_spec emptyHistSession).1 (by decide),
   (c6_undo_spec twoHistSession).2 (by decide)⟩

/-- A burst-free sequence of pushes: each push is followed by the expiry
of the 100ms debounce window ("pushes spaced beyond the debounce
window"). -/
def spacedPushes (s : Session) : List (List Node × List Edge) → Session
  | [] => s
  | p :: ps => spacedPushes (releaseLock (pushHistory s p.1 p.2)) ps

theorem pushHistory_length (s : Session) (n : List Node) (e : List Edge) :
    (pushHistory s n e).history.length = s.history.length ∨
    (pushHistory s n e).history.length = min s.history.length 20 + 1 := by
  unfold pushHistory
  split
  · exact Or.inl rfl
  · right
    simp only [List.length_append, List.length_drop, List.length_singleton]
    omega

theorem spacedPushes_le : ∀ (ps : List (List Node × List Edge)) (s : Session),
    s.history.length ≤ 21 → (spacedPushes s ps).history.length ≤ 21 := by
  intro ps
  induction ps with
  | nil => intro s h; exact h
  | cons p ps ih =>
    intro s h
    apply ih
    show (pushHistory s p.1 p.2).history.length ≤ 21
    rcases pushHistory_length s p.1 p.2 with h1 | h1 <;> omega

theorem spacedPushes_length : ∀ (ps : List (List Node × List Edge)) (s : Session),
    s.lock = false → s.history.length ≤ 21 →
    (spacedPushes s ps).history.length = min (s.history.length + ps.length) 21 := by
  intro ps
  induction ps with
  | nil => intro s _ h; simp [spacedPushes]; omega
  | cons p ps ih =>
    intro s hlock h
    have hpush : (pushHistory s p.1 p.2).history.length = min s.history.length 20 + 1 := by
      unfold pushHistory
      rw [if_neg (by simp [hlock])]
      simp only [List.length_append, List.length_drop, List.length_singleton]
      omega
    have : (spacedPushes (releaseLock (pushHistory s p.1 p.2)) ps).history.length =
        min ((releaseLock (pushHistory s p.1 p.2)).history.length + ps.length) 21 := by
      apply ih
      · rfl
      · show (pushHistory s p.1 p.2).history.length ≤ 21
        omega
    show (spacedPushes (releaseLock (pushHistory s p.1 p.2)) ps).history.length =
      min (s.history.length + (p :: ps).length) 21
    rw [this]
    show min ((pushHistory s p.1 p.2).history.length + ps.length) 21 = _
    rw [hpush]
    simp only [List.length_cons]
    omega

theorem undo_iterate_length {s : Session} (hlen : s.history.length = 21) :
    ∀ k, k ≤ 20 → (undoF^[k] s).history.length = 21 - k := by
  intro k
  induction k with
  | zero => intro _; simpa using hlen
  | succ m ih =>
    intro hm
    rw [Function.iterate_succ_apply']
    have hmlen : (undoF^[m] s).history.length = 21 - m := ih (by omega)
    rw [undoF_history_length (by omega)]
    omega

/-- C5: the history stack never exceeds 21 entries under any sequence of
debounce-spaced pushes starting from a stack of at most 21 entries; a
push onto a full stack of 21 evicts the oldest entry from the front;
k spaced pushes from an unlocked session grow the stack to
min (initial + k) 21, so more than 21 pushes leave exactly 21 entries;
and from a full stack of 21 entries, 20 undo steps reduce the history to
a single entry after which a further undo is a no-op — undo can step back
at most 20 times. -/
theorem c5_history_bounded
    (s : Session) (ps : List (List Node × List Edge)) (n : List Node) (e : List Edge)
    (hle : s.history.length ≤ 21) (hlock : s.lock = false)
    (hfull : s.history.length = 21) :
    (spacedPushes s ps).history.length ≤ 21 ∧
    (pushHistory s n e).history = s.history.tail ++ [⟨n, e⟩] ∧
    (spacedPushes s ps).history.length = min (s.history.length + ps.length) 21 ∧
    (undoF^[20] s).history.length = 1 ∧
    undoF (undoF^[20] s) = undoF^[20] s := by
  refine ⟨spacedPushes_le ps s hle, ?_, spacedPushes_length ps s hlock hle, ?_, ?_⟩
  · unfold pushHistory
    rw [if_neg (by simp [hlock])]
    rw [hfull]
    rw [show (21 : Nat) - 20 = 1 from rfl, List.drop_one]
  · exact undo_iterate_length hfull 20 (by omega)
  · exact undoF_noop (by rw [undo_iterate_length hfull 20 (by omega)]; omega)

/-- A session with a full history of 21 entries, unlocked. -/
def fullHistSession : Session := ⟨[], [], none, List.replicate 21 ⟨[], []⟩, false⟩

theorem c5_history_bounded_witness :
    (spacedPushes fullHistSession [([], [])]).history.length ≤ 21 ∧
    (pushHistory fullHistSession [] []).history =
      fullHistSession.history.tail ++ [⟨[], []⟩] ∧
    (spacedPushes fullHistSession [([], [])]).history.length =
      min (fullHistSession.history.length + 1) 21 ∧
    (undoF^[20] fullHistSession).history.length = 1 ∧
    undoF (undoF^[20] fullHistSession) = undoF^[20] fullHistSession :=
  c5_history_bounded fullHistSession [([], [])] [] []
    (by decide) rfl (by decide)

/-- The initial node of a freshly created map (part_000 line 856). -/
def rootNode : Node := ⟨"1", ⟨100, 100⟩, ⟨"中心", "#333"⟩, false⟩

/-- A freshly opened one-node document: onSelect (part_000 lines 850-853)
seeds the history with the single entry \x7b n: d.nodes, e: d.edges \x7d, and
the user has clicked the root so it is selected. -/
def c3Start : Session := ⟨[rootNode], [], some rootNode, [⟨[rootNode], []⟩], false⟩

/-- State after one addNode and the expiry of the debounce window. -/
def c3AfterFirst : Session := releaseLock (addNodeF c3Start "2" "e2")

/-- C3: the claim says addNode commits a snapshot before and after the
addition, so one undo returns exactly to the pre-add state.  In the code
the second pushHistory call inside addNode is always dropped: the first
call sets the isSavingRef lock synchronously and its 100ms release
timeout cannot fire before the second call, so each addNode commits only
the pre-add snapshot (the history grows by one entry per addNode, not
two).  Undo then applies the snapshot below the pre-add one: after a
second addNode on a freshly opened one-node document the pre-add counts
are 2 nodes and 1 edge, yet undo yields 1 node and 0 edges. -/
theorem c3_undo_after_addNode_misses_pre_add_state :
    c3AfterFirst.nodes.length = 2 ∧
    c3AfterFirst.edges.length = 1 ∧
    c3AfterFirst.history.length = 2 ∧
    (addNodeF c3AfterFirst "3" "e3").history.length = 3 ∧
    (undoF (addNodeF c3AfterFirst "3" "e3")).nodes.length = 1 ∧
    (undoF (addNodeF c3AfterFirst "3" "e3")).edges.length = 0 := by
  exact ⟨rfl, rfl, rfl, rfl, rfl, rfl⟩

/-- Root of the C2 witness graph. -/
def c2exNode1 : Node := ⟨"1", ⟨100, 100⟩, ⟨"root", "#333"⟩, false⟩

/-- Child of the C2 witness graph. -/
def c2exNode2 : Node := ⟨"2", ⟨340, 100⟩, ⟨"kid", "#333"⟩, false⟩

/-- Two-node session with the root selected, used to witness C2. -/
def c2exSession : Session :=
  ⟨[c2exNode1, c2exNode2], [⟨"e1", "1", "2"⟩], some c2exNode1, [], false⟩

/-- Result of deleteNode on c2exSession: everything is removed. -/
def c2exDeleted : Session :=
  ⟨[], [], none, [⟨[c2exNode1, c2exNode2], [⟨"e1", "1", "2"⟩]⟩], true⟩

theorem c2_deleteNode_removes_exactly_descendants_witness :
    c2exDeleted.nodes.Sublist c2exSession.nodes ∧
    (∀ n : Node, n ∈ c2exDeleted.nodes ↔
      n ∈ c2exSession.nodes ∧ ¬ Reaches c2exSession.edges c2exNode1.id n.id) ∧
    c2exDeleted.edges.Sublist c2exSession.edges ∧
    (∀ e : Edge, e ∈ c2exDeleted.edges ↔
      e ∈ c2exSession.edges ∧ ¬ Reaches c2exSession.edges c2exNode1.id e.source ∧
        ¬ Reaches c2exSession.edges c2exNode1.id e.target) :=
  c2_deleteNode_removes_exactly_descendants c2exSession c2exNode1 2 c2exDeleted rfl rfl

theorem pushHistory_selected (s : Session) (n : List Node) (e : List Edge) :
    (pushHistory s n e).selected = s.selected := by
  unfold pushHistory
  split <;> rfl

/-- The child node addNode builds for the selected parent when k nodes
already sit in the child column (part_000 lines 801-807). -/
def mkChild (selected : Node) (newId : String) (k : Nat) : Node :=
  { id := newId,
    position := { x := selected.position.x + 240,
                  y := selected.position.y + (k : Int) * 60 },
    data := { label := "新規項目", color := selected.data.color },
    hidden := false }

/-- The siblingCount of addNode (part_000 line 801): the number of nodes
whose x coordinate equals selected.x + 240. -/
def countSame (nds : List Node) (selected : Node) : Nat :=
  (nds.filter (fun n => n.position.x == selected.position.x + 240)).length

theorem addNodeF_nodes {s : Session} {selected : Node} (newId eid : String)
    (hsel : s.selected = some selected) :
    (addNodeF s newId eid).nodes =
      s.nodes ++ [mkChild selected newId (countSame s.nodes selected)] := by
  unfold addNodeF
  rw [hsel]
  simp only
  exact (pushHistory_nodes _ _ _).1

theorem addNodeF_edges {s : Session} {selected : Node} (newId eid : String)
    (hsel : s.selected = some selected) :
    (addNodeF s newId eid).edges = s.edges ++ [⟨eid, selected.id, newId⟩] := by
  unfold addNodeF
  rw [hsel]
  simp only
  exact (pushHistory_nodes _ _ _).2

theorem addNodeF_selected {s : Session} {selected : Node} (newId eid : String)
    (hsel : s.selected = some selected) :
    (addNodeF s newId eid).selected = some selected := by
  unfold addNodeF
  rw [hsel]
  simp only
  rw [pushHistory_selected]
  show (pushHistory s s.nodes s.edges).selected = some selected
  rw [pushHistory_selected]
  exact hsel

theorem countSame_append_child (nds : List Node) (selected : Node) (newId : String) (k : Nat) :
    countSame (nds ++ [mkChild selected newId k]) selected = countSame nds selected + 1 := by
  unfold countSame
  rw [List.filter_append, List.length_append]
  congr 1
  simp [mkChild]

/-- The children produced by repeatedly calling addNode with the same
selected parent, starting from sibling count k: positions stack
downwards, one 60-pixel row per addition. -/
def mkChildren (selected : Node) : Nat → List (String × String) → List Node
  | _, [] => []
  | k, (nid, _) :: rest => mkChild selected nid k :: mkChildren selected (k + 1) rest

/-- Repeated addNode calls; each pair carries the two uuidv4() results of
one call. -/
def addMany (s : Session) : List (String × String) → Session
  | [] => s
  | (nid, eid) :: rest => addMany (addNodeF s nid eid) rest

theorem addMany_nodes {selected : Node} :
    ∀ (pairs : List (String × String)) (s : Session), s.selected = some selected →
      (addMany s pairs).nodes =
        s.nodes ++ mkChildren selected (countSame s.nodes selected) pairs := by
  intro pairs
  induction pairs with
  | nil => intro s _; simp [addMany, mkChildren]
  | cons p rest ih =>
    intro s hsel
    obtain ⟨nid, eid⟩ := p
    show (addMany (addNodeF s nid eid) rest).nodes = _
    rw [ih (addNodeF s nid eid) (addNodeF_selected nid eid hsel)]
    rw [addNodeF_nodes nid eid hsel]
    rw [countSame_append_child]
    rw [List.append_assoc]
    rfl

theorem mem_mkChildren {selected : Node} :
    ∀ (pairs : List (String × String)) (k : Nat) (m : Node),
      m ∈ mkChildren selected k pairs →
      ∃ i < pairs.length,
        m.position = ⟨selected.position.x + 240,
                      selected.position.y + ((k + i : Nat) : Int) * 60⟩ := by
  intro pairs
  induction pairs with
  | nil => intro k m hm; simp [mkChildren] at hm
  | cons p rest ih =>
    intro k m hm
    obtain ⟨nid, eid⟩ := p
    rcases List.mem_cons.mp hm with hm | hm
    · exact ⟨0, by simp, by simp [hm, mkChild]⟩
    · obtain ⟨i, hi, hpos⟩ := ih (k + 1) m hm
      refine ⟨i + 1, by simpa using Nat.succ_lt_succ hi, ?_⟩
      rw [hpos]
      congr 2
      omega

theorem mkChildren_pairwise {selected : Node} :
    ∀ (pairs : List (String × String)) (k : Nat),
      List.Pairwise (fun a b : Node => a.position ≠ b.position)
        (mkChildren selected k pairs) := by
  intro pairs
  induction pairs with
  | nil => intro k; exact List.Pairwise.nil
  | cons p rest ih =>
    intro k
    obtain ⟨nid, eid⟩ := p
    refine List.Pairwise.cons ?_ (ih (k + 1))
    intro m hm heq
    obtain ⟨i, _, hpos⟩ := mem_mkChildren rest (k + 1) m hm
    rw [hpos] at heq
    simp only [mkChild, Pt.mk.injEq] at heq
    have hy := heq.2
    have : (k : Int) * 60 = ((k + 1 + i : Nat) : Int) * 60 := by omega
    push_cast at this
    omega

/-- C7: with parent X selected, every addNode call places the new child
at (X.x + 240, X.y + siblingCount * 60) where siblingCount is the number
of existing nodes whose x equals X.x + 240, so a run of additions under
the same parent appends children at strictly descending rows and no two
of them ever receive identical coordinates. -/
theorem c7_placement (s : Session) (selected : Node) (pairs : List (String × String))
    (hsel : s.selected = some selected) :
    (addMany s pairs).nodes =
      s.nodes ++ mkChildren selected (countSame s.nodes selected) pairs ∧
    List.Pairwise (fun a b : Node => a.position ≠ b.position)
      (mkChildren selected (countSame s.nodes selected) pairs) :=
  ⟨addMany_nodes pairs s hsel, mkChildren_pairwise pairs _⟩

theorem c7_placement_witness :
    (addMany c2exSession [("7", "e7"), ("8", "e8")]).nodes =
      c2exSession.nodes ++
        mkChildren c2exNode1 (countSame c2exSession.nodes c2exNode1)
          [("7", "e7"), ("8", "e8")] ∧
    List.Pairwise (fun a b : Node => a.position ≠ b.position)
      (mkChildren c2exNode1 (countSame c2exSession.nodes c2exNode1)
        [("7", "e7"), ("8", "e8")]) :=
  c7_placement c2exSession c2exNode1 [("7", "e7"), ("8", "e8")] rfl

/-- C10: the node created by addNode carries the selected parent's color
(part_000 line 806: data: \x7b label: 新規項目, color: selected.data.color \x7d),
not a fixed default. -/
theorem c10_child_inherits_color (s : Session) (selected : Node) (newId eid : String)
    (hsel : s.selected = some selected) :
    (addNodeF s newId eid).nodes =
      s.nodes ++ [mkChild selected newId (countSame s.nodes selected)] ∧
    ((addNodeF s newId eid).nodes.getLast?).map (fun n => n.data.color) =
      some selected.data.color := by
  refine ⟨addNodeF_nodes newId eid hsel, ?_⟩
  rw [addNodeF_nodes newId eid hsel]
  rw [List.getLast?_append]
  rfl

theorem c10_child_inherits_color_witness :
    (addNodeF c2exSession "9" "e9").nodes =
      c2exSession.nodes ++ [mkChild c2exNode1 "9" (countSame c2exSession.nodes c2exNode1)] ∧
    ((addNodeF c2exSession "9" "e9").nodes.getLast?).map (fun n => n.data.color) =
      some c2exNode1.data.color :=
  c10_child_inherits_color c2exSession c2exNode1 "9" "e9" rfl

/-- C9: updateLabel leaves the edges untouched and maps relabelNode over
the nodes; relabelNode preserves every node's id, position, hidden flag
and color, is the identity on nodes with a different id, and sets exactly
the label of the node with the given id. -/
theorem c9_updateLabel_frame (s : Session) (id label : String) :
    (updateLabel s id label).edges = s.edges ∧
    (updateLabel s id label).nodes = s.nodes.map (relabelNode id label) ∧
    (∀ n : Node, (relabelNode id label n).id = n.id ∧
      (relabelNode id label n).position = n.position ∧
      (relabelNode id label n).hidden = n.hidden ∧
      (relabelNode id label n).data.color = n.data.color) ∧
    (∀ n : Node, n.id ≠ id → relabelNode id label n = n) ∧
    (∀ n : Node, n.id = id → (relabelNode id label n).data.label = label) := by
  refine ⟨?_, rfl, ?_, ?_, ?_⟩
  · show (pushHistory s (s.nodes.map (relabelNode id label)) s.edges).edges = s.edges
    exact (pushHistory_nodes _ _ _).2
  · intro n
    unfold relabelNode
    split <;> exact ⟨rfl, rfl, rfl, rfl⟩
  · intro n hne
    unfold relabelNode
    rw [if_neg (by simpa using hne)]
  · intro n heq
    unfold relabelNode
    rw [if_pos (by simpa using heq)]

theorem c9_updateLabel_frame_witness :
    (updateLabel c2exSession "1" "renamed").edges = c2exSession.edges ∧
    relabelNode "1" "renamed" c2exNode2 = c2exNode2 ∧
    (relabelNode "1" "renamed" c2exNode1).data.label = "renamed" ∧
    (relabelNode "1" "renamed" c2exNode1).position = c2exNode1.position :=
  ⟨(c9_updateLabel_frame c2exSession "1" "renamed").1,
   (c9_updateLabel_frame c2exSession "1" "renamed").2.2.2.1 c2exNode2 (by decide),
   (c9_updateLabel_frame c2exSession "1" "renamed").2.2.2.2 c2exNode1 rfl,
   ((c9_updateLabel_frame c2exSession "1" "renamed").2.2.1 c2exNode1).2.1⟩

/-- Embedding of toggleChildren (src/src/App.js lines 236-243, identical
in the first document of part_000 lines 380-387):

  const toggleChildren = (nodeId) => \x7b
    const childIds = getDescendants(nodeId);
    setNodes((nds) => nds.map((n) =>
      childIds.includes(n.id) ? \x7b ...n, hidden: !nds.find((x) => x.id === n.id)?.hidden \x7d : n));
  \x7d;

getDescendants may diverge, hence the fuel; !undefined is true, hence the
getD false under the negation. -/
def toggleChildren (edges : List Edge) (fuel : Nat) (nodeId : String)
    (nds : List Node) : Option (List Node) :=
  match getDescendantsF edges fuel nodeId with
  | none => none
  | some childIds => some (nds.map (fun n =>
      if childIds.contains n.id then
        { n with hidden := !(((nds.find? (fun x => x.id == n.id)).map Node.hidden).getD false) }
      else n))

/-- Pointwise effect of toggleChildren on a node list with unique ids:
flip the hidden flag of the nodes whose id is in childIds. -/
def flipHidden (childIds : List String) (n : Node) : Node :=
  if childIds.contains n.id then { n with hidden := !n.hidden } else n

theorem flipHidden_id (childIds : List String) (n : Node) :
    (flipHidden childIds n).id = n.id := by
  unfold flipHidden
  split <;> rfl

theorem flipHidden_invol (childIds : List String) (n : Node) :
    flipHidden childIds (flipHidden childIds n) = n := by
  by_cases h : childIds.contains n.id = true
  · have h1 : flipHidden childIds n = { n with hidden := !n.hidden } := by
      unfold flipHidden
      rw [if_pos h]
    have h2 : flipHidden childIds { n with hidden := !n.hidden } =
        { n with hidden := !!n.hidden } := by
      unfold flipHidden
      rw [if_pos (show childIds.contains
        (Node.mk n.id n.position n.data (!n.hidden)).id = true from h)]
    rw [h1, h2, Bool.not_not]
  · have h1 : flipHidden childIds n = n := by
      unfold flipHidden
      rw [if_neg h]
    rw [h1, h1]

theorem find?_id_of_nodup :
    ∀ (nds : List Node), (nds.map Node.id).Nodup →
      ∀ n ∈ nds, nds.find? (fun x => x.id == n.id) = some n := by
  intro nds
  induction nds with
  | nil => intro _ n hn; simp at hn
  | cons m rest ih =>
    intro hnodup n hn
    have hnd : m.id ∉ rest.map Node.id ∧ (rest.map Node.id).Nodup := by
      rw [List.map_cons] at hnodup
      exact List.nodup_cons.mp hnodup
    rcases List.mem_cons.mp hn with hn | hn
    · subst hn
      exact List.find?_cons_of_pos _ (by simp)
    · have hne : (m.id == n.id) = false := by
        simp only [beq_eq_false_iff_ne, ne_eq]
        intro heq
        exact hnd.1 (heq ▸ List.mem_map_of_mem Node.id hn)
      rw [List.find?_cons_of_neg _ (by simp [hne])]
      exact ih hnd.2 n hn

theorem toggleChildren_map_eq {nds : List Node} (hnodup : (nds.map Node.id).Nodup)
    (childIds : List String) :
    (nds.map (fun n =>
      if childIds.contains n.id then
        { n with hidden := !(((nds.find? (fun x => x.id == n.id)).map Node.hidden).getD false) }
      else n)) = nds.map (flipHidden childIds) := by
  apply List.map_congr_left
  intro n hn
  rw [find?_id_of_nodup nds hnodup n hn]
  rfl

/-- Edges of the two-child tree 1 → \x7b2, 3\x7d used against C4. -/
def c4exEdges : List Edge := [⟨"e1", "1", "2"⟩, ⟨"e2", "1", "3"⟩]

/-- Nodes of the C4 example: 1 visible, 2 hidden, 3 visible. -/
def c4exNodes : List Node :=
  [⟨"1", ⟨0, 0⟩, ⟨"r", "#333"⟩, false⟩,
   ⟨"2", ⟨240, 0⟩, ⟨"a", "#333"⟩, true⟩,
   ⟨"3", ⟨240, 60⟩, ⟨"b", "#333"⟩, false⟩]

/-- C4 counterexample: for the tree 1 → \x7b2, 3\x7d with node 2 hidden and
nodes 1, 3 visible, toggleChildren("1") produces hidden flags
[true, false, true]: the flag of node "1" itself is flipped even though
the claim exempts nodeId, and nodes 2 and 3 end up with opposite flags,
so no uniform value (node 1 untouched, both descendants set to the
negation of one representative's state) describes the result. -/
theorem c4_toggleChildren_counterexample :
    (toggleChildren c4exEdges 2 "1" c4exNodes).map (fun l => l.map Node.hidden) =
      some [true, false, true] ∧
    ¬ ∃ v : Bool,
      (toggleChildren c4exEdges 2 "1" c4exNodes).map (fun l => l.map Node.hidden) =
        some [false, v, v] := by
  constructor
  · rfl
  · rintro ⟨v, hv⟩
    cases v <;> simp at hv <;> exact absurd hv (by decide)

/-- C4 as amended: on a node list with unique ids, toggleChildren flips
the hidden flag of every node whose id lies in the computed descendant
list — which includes nodeId itself — each to the negation of that node's
own current flag, and leaves every other node unchanged; applying it a
second time restores exactly the original flags. -/
theorem c4_toggleChildren_amended (edges : List Edge) (fuel : Nat) (nodeId : String)
    (nds : List Node) (childIds : List String)
    (hnodup : (nds.map Node.id).Nodup)
    (hdesc : getDescendantsF edges fuel nodeId = some childIds) :
    toggleChildren edges fuel nodeId nds = some (nds.map (flipHidden childIds)) ∧
    toggleChildren edges fuel nodeId (nds.map (flipHidden childIds)) = some nds := by
  constructor
  · unfold toggleChildren
    rw [hdesc]
    exact congrArg some (toggleChildren_map_eq hnodup childIds)
  · unfold toggleChildren
    rw [hdesc]
    have hnodup2 : ((nds.map (flipHidden childIds)).map Node.id).Nodup := by
      rw [List.map_map]
      have : (Node.id ∘ flipHidden childIds) = Node.id := by
        funext n
        exact flipHidden_id childIds n
      rw [this]
      exact hnodup
    have h2 : (nds.map (flipHidden childIds)).map (flipHidden childIds) = nds := by
      rw [List.map_map]
      have : (flipHidden childIds ∘ flipHidden childIds) = id := by
        funext n
        exact flipHidden_invol childIds n
      rw [this, List.map_id]
    exact congrArg some ((toggleChildren_map_eq hnodup2 childIds).trans h2)

theorem c4_toggleChildren_amended_witness :
    toggleChildren c4exEdges 2 "1" c4exNodes =
      some (c4exNodes.map (flipHidden ["1", "2", "3", "2", "3"])) ∧
    toggleChildren c4exEdges 2 "1" (c4exNodes.map (flipHidden ["1", "2", "3", "2", "3"])) =
      some c4exNodes :=
  c4_toggleChildren_amended c4exEdges 2 "1" c4exNodes ["1", "2", "3", "2", "3"]
    (by decide) rfl

/-- One persisted document of the catalog (a value of the mindmaps
record): name, nodes and edges. -/
structure Document where
  name : String
  nodes : List Node
  edges : List Edge
deriving DecidableEq, Repr

/-- Outcome of reading localStorage.getItem('mindmaps') combined with
what JSON.parse would do on it: absent (getItem yields null, falsy),
emptyStr (the stored string is empty, falsy in JS), corrupt (a nonempty
string JSON.parse throws on), or parsed (a nonempty string parsing to
the catalog, a mapping from document id to document). -/
inductive Stored
  | absent
  | emptyStr
  | corrupt
  | parsed (catalog : List (String × Document))
deriving DecidableEq, Repr

/-- Embedding of the catalog load in MapListView (part_000 lines
689-692): if the stored value is falsy (absent or empty) the maps state
keeps its initial value, the empty mapping; otherwise JSON.parse runs,
throwing on a corrupt value (error = the exception escapes the effect)
and producing the catalog otherwise. -/
def listMaps : Stored → Except Unit (List (String × Document))
  | .absent => .ok []
  | .emptyStr => .ok []
  | .corrupt => .error ()
  | .parsed catalog => .ok catalog

/-- Embedding of opening a document, App.onSelect (part_000 lines
850-853): JSON.parse(localStorage.getItem('mindmaps'))[id].  With an
absent store JSON.parse(null) evaluates to null and null[id] throws;
with an empty or corrupt store JSON.parse itself throws; with a parsed
catalog missing the id, d is undefined and d.nodes throws.  Only a
parsed catalog containing the id yields a document; there is no fallback
document on any failure path. -/
def openMap : Stored → String → Except Unit Document
  | .absent, _ => .error ()
  | .emptyStr, _ => .error ()
  | .corrupt, _ => .error ()
  | .parsed catalog, id =>
    match catalog.find? (fun p => p.1 == id) with
    | none => .error ()
    | some p => .ok p.2

/-- C8 counterexample: the claim says a corrupt stored value is treated
as no data (listing yields the empty mapping, never a fatal error), but
listing a corrupt store raises, and opening any document with an absent
store raises instead of falling back to a fresh single-node document. -/
theorem c8_load_counterexample :
    listMaps Stored.corrupt ≠ Except.ok [] ∧
    openMap Stored.absent "m" = Except.error () :=
  ⟨fun h => Except.noConfusion h, rfl⟩

/-- C8 as amended: listing treats an absent or empty stored value as an
empty mapping, but a corrupt (unparseable) stored value makes listing
raise a parse error, and opening a document raises — with no single-node
fallback — whenever the store is absent, empty or corrupt. -/
theorem c8_load_amended :
    listMaps Stored.absent = Except.ok [] ∧
    listMaps Stored.emptyStr = Except.ok [] ∧
    listMaps Stored.corrupt = Except.error () ∧
    (∀ id, openMap Stored.absent id = Except.error ()) ∧
    (∀ id, openMap Stored.emptyStr id = Except.error ()) ∧
    (∀ id, openMap Stored.corrupt id = Except.error ()) :=
  ⟨rfl, rfl, rfl, fun _ => rfl, fun _ => rfl, fun _ => rfl⟩

end Mindmap
